import Mathlib

/-!
Verification of the milli document-to-postings extraction engine
(`src/milli/src/update/index_documents/extract/extract_docid_word_positions.rs`)
and of the sort-expression parser (`src/milli/src/asc_desc.rs`), against the
repository's natural-language specification.

Machine integers are modelled as `Nat` with explicit `% 2 ^ w` where the Rust
code performs wrapping or truncating conversions.  Fallible code returns
`Except`.  External capabilities (the tokenizer crate, the `f64` number parser
of the standard library, constants living outside the provided sources) are
modelled from the specification and marked as such in their doc comments.
-/

namespace Milli

/-! ### Tokens (interface of the external tokenizer crate) -/

/-- Separator classification carried by separator tokens, as in
`meilisearch_tokenizer::token::SeparatorKind`. -/
inductive SeparatorKind where
  | Hard
  | Soft
deriving DecidableEq

/-- Token classification, as in `meilisearch_tokenizer::TokenKind`. -/
inductive TokenKind where
  | Word
  | StopWord
  | Unknown
  | Separator (s : SeparatorKind)
deriving DecidableEq

/-- A classified token with its text span, as yielded by the external
tokenizer. -/
structure Token where
  kind : TokenKind
  text : String
deriving DecidableEq

/-- Mirrors `Token::is_separator`: `Some(kind)` exactly on separator tokens. -/
def Token.is_separator : Token → Option SeparatorKind
  | ⟨.Separator s, _⟩ => some s
  | ⟨.Word, _⟩ => none
  | ⟨.StopWord, _⟩ => none
  | ⟨.Unknown, _⟩ => none

/-- Modelled from the spec: the external tokenizer crate's word test used as
the output filter of the Position Assignor.  Per the specification, "only
tokens whose classification is word-class are yielded", where word-class means
word, stop-word or unknown. -/
def Token.is_word : Token → Bool
  | ⟨.Word, _⟩ => true
  | ⟨.StopWord, _⟩ => true
  | ⟨.Unknown, _⟩ => true
  | ⟨.Separator _, _⟩ => false

/-! ### Position Assignor (`process_tokens`) -/

/-- The offset increment applied when a word-class token arrives, as in the
inner `match *prev_kind` of `process_tokens`: 8 after a hard separator, 1
after any other significant token, 0 when none was seen yet. -/
def stepInc : Option TokenKind → Nat
  | some (.Separator .Hard) => 8
  | some _ => 1
  | none => 0

/-- The `scan` step of `process_tokens` (lines 147-168 of the extraction
source): state is the running offset and the kind of the last significant
token; every incoming token is emitted paired with the current offset, and
the state is updated as in the Rust `match` on `token.kind`. -/
def processScan (offset : Nat) (prevKind : Option TokenKind) :
    List Token → List (Nat × Token)
  | [] => []
  | t :: ts =>
    match t.kind with
    | .Word | .StopWord | .Unknown =>
      let offset := offset + stepInc prevKind
      (offset, t) :: processScan offset (some t.kind) ts
    | .Separator .Hard =>
      (offset, t) :: processScan offset (some (.Separator .Hard)) ts
    | .Separator .Soft =>
      if prevKind = some (.Separator .Hard) then
        (offset, t) :: processScan offset prevKind ts
      else
        (offset, t) :: processScan offset (some (.Separator .Soft)) ts

/-- Mirrors `process_tokens` (lines 142-170): skip leading separators, scan
with the transition rule, and keep only word tokens. -/
def process_tokens (ts : List Token) : List (Nat × Token) :=
  (processScan 0 none (ts.dropWhile (fun t => t.is_separator.isSome))).filter
    (fun p => p.2.is_word)

/-- Reference Position Assignor, written from the specification's transition
rule rather than from the source: the first word-class token gets offset 0; a
later word-class token gets the previous one's offset plus 8 if a hard
separator was seen since that previous word-class token (soft separators do
not demote this memory), plus 1 otherwise; separators are not yielded. -/
def specAssign (prevOff : Option Nat) (sawHard : Bool) :
    List Token → List (Nat × Token)
  | [] => []
  | t :: ts =>
    match t.kind with
    | .Separator .Hard => specAssign prevOff true ts
    | .Separator .Soft => specAssign prevOff sawHard ts
    | _ =>
      let off :=
        match prevOff with
        | none => 0
        | some o => o + (if sawHard then 8 else 1)
      (off, t) :: specAssign (some off) false ts

theorem is_word_Word (s : String) : Token.is_word ⟨.Word, s⟩ = true := rfl

theorem is_word_StopWord (s : String) : Token.is_word ⟨.StopWord, s⟩ = true :=
  rfl

theorem is_word_Unknown (s : String) : Token.is_word ⟨.Unknown, s⟩ = true :=
  rfl

theorem is_word_Separator (k : SeparatorKind) (s : String) :
    Token.is_word ⟨.Separator k, s⟩ = false := rfl

theorem filter_processScan_eq_specAssign (ts : List Token) :
    ∀ (off : Nat) (k : TokenKind),
      (processScan off (some k) ts).filter (fun p => p.2.is_word) =
        specAssign (some off) (decide (k = .Separator .Hard)) ts := by
  induction ts with
  | nil => intro off k; simp [processScan, specAssign]
  | cons t ts ih =>
    intro off k
    obtain ⟨tk, ttext⟩ := t
    cases tk with
    | Word =>
      cases k with
      | Separator s =>
        cases s <;>
          simp [processScan, specAssign, stepInc, List.filter_cons,
            is_word_Word, ih]
      | _ =>
        simp [processScan, specAssign, stepInc, List.filter_cons, is_word_Word,
          ih]
    | StopWord =>
      cases k with
      | Separator s =>
        cases s <;>
          simp [processScan, specAssign, stepInc, List.filter_cons,
            is_word_StopWord, ih]
      | _ =>
        simp [processScan, specAssign, stepInc, List.filter_cons,
          is_word_StopWord, ih]
    | Unknown =>
      cases k with
      | Separator s =>
        cases s <;>
          simp [processScan, specAssign, stepInc, List.filter_cons,
            is_word_Unknown, ih]
      | _ =>
        simp [processScan, specAssign, stepInc, List.filter_cons,
          is_word_Unknown, ih]
    | Separator s =>
      cases s with
      | Hard =>
        simp [processScan, specAssign, List.filter_cons, is_word_Separator, ih]
      | Soft =>
        by_cases hk : k = TokenKind.Separator .Hard
        · subst hk
          simp [processScan, specAssign, List.filter_cons, is_word_Separator,
            ih]
        · have hk2 : ¬ (some k = some (TokenKind.Separator .Hard)) := by
            simpa using hk
          simp [processScan, specAssign, List.filter_cons, is_word_Separator,
            ih, hk2, hk]

theorem specAssign_none_flag (ts : List Token) :
    ∀ (b1 b2 : Bool), specAssign none b1 ts = specAssign none b2 ts := by
  induction ts with
  | nil => intro b1 b2; rfl
  | cons t ts ih =>
    intro b1 b2
    obtain ⟨tk, ttext⟩ := t
    cases tk with
    | Separator s => cases s <;> simp [specAssign, ih b1 b2, ih b2 b2, ih b1 b1]
    | _ => simp [specAssign]

theorem is_separator_Word (s : String) :
    Token.is_separator ⟨.Word, s⟩ = none := rfl

theorem is_separator_StopWord (s : String) :
    Token.is_separator ⟨.StopWord, s⟩ = none := rfl

theorem is_separator_Unknown (s : String) :
    Token.is_separator ⟨.Unknown, s⟩ = none := rfl

theorem is_separator_Separator (k : SeparatorKind) (s : String) :
    Token.is_separator ⟨.Separator k, s⟩ = some k := rfl

theorem process_tokens_eq_specAssign (ts : List Token) :
    process_tokens ts = specAssign none false ts := by
  induction ts with
  | nil => rfl
  | cons t ts ih =>
    obtain ⟨tk, ttext⟩ := t
    cases tk with
    | Word =>
      simp [process_tokens, List.dropWhile_cons, is_separator_Word,
        processScan, stepInc, specAssign, List.filter_cons, is_word_Word,
        filter_processScan_eq_specAssign]
    | StopWord =>
      simp [process_tokens, List.dropWhile_cons, is_separator_StopWord,
        processScan, stepInc, specAssign, List.filter_cons, is_word_StopWord,
        filter_processScan_eq_specAssign]
    | Unknown =>
      simp [process_tokens, List.dropWhile_cons, is_separator_Unknown,
        processScan, stepInc, specAssign, List.filter_cons, is_word_Unknown,
        filter_processScan_eq_specAssign]
    | Separator s =>
      have h1 : process_tokens (⟨TokenKind.Separator s, ttext⟩ :: ts) =
          process_tokens ts := by
        simp [process_tokens, List.dropWhile_cons, is_separator_Separator]
      cases s with
      | Hard =>
        rw [h1, ih, specAssign_none_flag ts false true]
        simp [specAssign]
      | Soft =>
        rw [h1, ih]
        simp [specAssign]

/-- C4: for every token stream the relative offsets follow the specified
transition rule (first word-class token gets 0, +8 across a hard separator,
+1 otherwise, a soft separator never demoting the hard-separator memory) —
stated as agreement with the independently written reference assignor
`specAssign`, together with the concrete hard-separator-then-soft-separator
gap of exactly 8 and the plain hard/soft gaps. -/
theorem position_transition_rule (ts : List Token)
    (s1 s2 sep1 sep2 : String) :
    process_tokens ts = specAssign none false ts ∧
      process_tokens
          [⟨.Word, s1⟩, ⟨.Separator .Hard, sep1⟩, ⟨.Separator .Soft, sep2⟩,
            ⟨.Word, s2⟩] =
        [(0, ⟨.Word, s1⟩), (8, ⟨.Word, s2⟩)] ∧
      process_tokens [⟨.Word, s1⟩, ⟨.Separator .Hard, sep1⟩, ⟨.Word, s2⟩] =
        [(0, ⟨.Word, s1⟩), (8, ⟨.Word, s2⟩)] ∧
      process_tokens [⟨.Word, s1⟩, ⟨.Separator .Soft, sep1⟩, ⟨.Word, s2⟩] =
        [(0, ⟨.Word, s1⟩), (1, ⟨.Word, s2⟩)] := by
  refine ⟨process_tokens_eq_specAssign ts, ?_, ?_, ?_⟩ <;> rfl

theorem processScan_bound_pairwise (ts : List Token) :
    ∀ (off : Nat) (pk : Option TokenKind),
      (∀ p ∈ processScan off pk ts, off ≤ p.1) ∧
        (processScan off pk ts).Pairwise (fun a b => a.1 ≤ b.1) := by
  induction ts with
  | nil => intro off pk; simp [processScan]
  | cons t ts ih =>
    intro off pk
    obtain ⟨tk, ttext⟩ := t
    have step :
        ∀ (off2 : Nat) (pk2 : Option TokenKind) (tok : Token), off ≤ off2 →
          (∀ p ∈ (off2, tok) :: processScan off2 pk2 ts, off ≤ p.1) ∧
            ((off2, tok) :: processScan off2 pk2 ts).Pairwise
              (fun a b => a.1 ≤ b.1) := by
      intro off2 pk2 tok hle
      constructor
      · intro p hp
        rcases List.mem_cons.mp hp with rfl | hp
        · exact hle
        · exact le_trans hle ((ih off2 pk2).1 p hp)
      · exact List.Pairwise.cons (fun b hb => (ih off2 pk2).1 b hb)
          (ih off2 pk2).2
    cases tk with
    | Word =>
      simpa [processScan] using
        step (off + stepInc pk) (some .Word) ⟨.Word, ttext⟩
          (Nat.le_add_right off _)
    | StopWord =>
      simpa [processScan] using
        step (off + stepInc pk) (some .StopWord) ⟨.StopWord, ttext⟩
          (Nat.le_add_right off _)
    | Unknown =>
      simpa [processScan] using
        step (off + stepInc pk) (some .Unknown) ⟨.Unknown, ttext⟩
          (Nat.le_add_right off _)
    | Separator s =>
      cases s with
      | Hard =>
        simpa [processScan] using
          step off (some (TokenKind.Separator .Hard))
            ⟨.Separator .Hard, ttext⟩ (le_refl off)
      | Soft =>
        by_cases hpk : pk = some (TokenKind.Separator .Hard)
        · simpa [processScan, hpk] using
            step off pk ⟨.Separator .Soft, ttext⟩ (le_refl off)
        · simpa [processScan, hpk] using
            step off (some (TokenKind.Separator .Soft))
              ⟨.Separator .Soft, ttext⟩ (le_refl off)

/-- C8: for any token stream, the sequence of relative offsets paired with the
tokens yielded by the Position Assignor is non-decreasing. -/
theorem offset_monotonicity (ts : List Token) :
    ((process_tokens ts).map Prod.fst).Pairwise (· ≤ ·) := by
  have h := (processScan_bound_pairwise
    (ts.dropWhile (fun t => t.is_separator.isSome)) 0 none).2
  have hsub : List.Sublist (process_tokens ts)
      (processScan 0 none (ts.dropWhile (fun t => t.is_separator.isSome))) :=
    List.filter_sublist _
  exact (List.pairwise_map).2 (h.sublist hsub)

/-! ### Text Flattener (`json_to_string`) -/

mutual

/-- The semi-structured value model (serde_json's `Value`): null, boolean,
number, string, array, object.  Arrays and objects are modelled with their own
list types so that mutual structural recursion mirrors the recursive-descent
of `json_to_string`.  Numbers are modelled as integers; only their textual
rendering matters to the flattener. -/
inductive Value where
  | null
  | bool (b : Bool)
  | number (n : Int)
  | string (s : String)
  | array (xs : ValueList)
  | object (kvs : ObjList)

/-- Array contents for `Value.array`. -/
inductive ValueList where
  | nil
  | cons (v : Value) (vs : ValueList)

/-- Object entries (key/value pairs, in stored order) for `Value.object`. -/
inductive ObjList where
  | nil
  | cons (k : String) (v : Value) (kvs : ObjList)

end

/-- Rendering of a boolean by the `write!` in the `Value::Bool` arm. -/
def boolRender (b : Bool) : String := if b then "true" else "false"

/-- Decimal digits of a positive natural number, least significant first. -/
def natDigitsRev : Nat → List Char
  | 0 => []
  | n + 1 =>
    Char.ofNat (48 + (n + 1) % 10) :: natDigitsRev ((n + 1) / 10)

/-- Decimal rendering of a natural number. -/
def natRender (n : Nat) : String :=
  if n = 0 then "0" else ⟨(natDigitsRev n).reverse⟩

/-- Modelled from the spec: the canonical textual representation of a number
written by the `Value::Number` arm (the external crate's `Display`),
restricted to the integers our `Value` carries. -/
def numRender (n : Int) : String :=
  if n < 0 then "-" ++ natRender n.natAbs else natRender n.toNat

mutual

/-- Mirrors the recursive `inner` helper of `json_to_string` (lines 92-128):
state-passing form, returning the "at least one value written" flag together
with the new contents of the output buffer.  Array elements write directly
into the enclosing buffer; object entries build `"key: value. "` in a
transient buffer and merge it only when the value proved indexable. -/
def innerJ : Value → String → Bool × String
  | .null, out => (false, out)
  | .bool b, out => (true, out ++ boolRender b)
  | .number n, out => (true, out ++ numRender n)
  | .string s, out => (true, out ++ s)
  | .array xs, out => innerArr xs out
  | .object kvs, out => innerObj kvs out

/-- The `Value::Array` loop of `inner`. -/
def innerArr : ValueList → String → Bool × String
  | .nil, out => (false, out)
  | .cons v vs, out =>
    let r := innerJ v out
    let out2 := if r.1 then r.2 ++ ". " else r.2
    let rest := innerArr vs out2
    (r.1 || rest.1, rest.2)

/-- The `Value::Object` loop of `inner`. -/
def innerObj : ObjList → String → Bool × String
  | .nil, out => (false, out)
  | .cons k v kvs, out =>
    let r := innerJ v (k ++ ": ")
    let out2 := if r.1 then out ++ r.2 ++ ". " else out
    let rest := innerObj kvs out2
    (r.1 || rest.1, rest.2)

end

/-- Mirrors `json_to_string` (lines 91-137): a top-level string is returned
directly; otherwise `inner` fills the caller-supplied buffer and the buffer is
returned when at least one value was written. -/
def json_to_string (value : Value) (buffer : String) : Option String :=
  match value with
  | .string s => some s
  | v =>
    let r := innerJ v buffer
    if r.1 then some r.2 else none

mutual

/-- Written from the claim: a value is recursively non-indexable when it is
null, or a composite all of whose parts are non-indexable (in particular the
empty array and the empty object). -/
def nonIndexable : Value → Bool
  | .null => true
  | .bool _ => false
  | .number _ => false
  | .string _ => false
  | .array xs => nonIndexableArr xs
  | .object kvs => nonIndexableObj kvs

/-- All elements non-indexable. -/
def nonIndexableArr : ValueList → Bool
  | .nil => true
  | .cons v vs => nonIndexable v && nonIndexableArr vs

/-- All entry values non-indexable. -/
def nonIndexableObj : ObjList → Bool
  | .nil => true
  | .cons _ v kvs => nonIndexable v && nonIndexableObj kvs

end

mutual

theorem innerJ_flag (v : Value) (out : String) :
    (innerJ v out).1 = !(nonIndexable v) := by
  cases v with
  | null => simp [innerJ, nonIndexable]
  | bool b => simp [innerJ, nonIndexable]
  | number n => simp [innerJ, nonIndexable]
  | string s => simp [innerJ, nonIndexable]
  | array xs => simpa [innerJ, nonIndexable] using innerArr_flag xs out
  | object kvs => simpa [innerJ, nonIndexable] using innerObj_flag kvs out

theorem innerArr_flag (xs : ValueList) (out : String) :
    (innerArr xs out).1 = !(nonIndexableArr xs) := by
  cases xs with
  | nil => simp [innerArr, nonIndexableArr]
  | cons v vs =>
    simp only [innerArr, nonIndexableArr, Bool.not_and]
    rw [innerJ_flag v out, innerArr_flag vs _]

theorem innerObj_flag (kvs : ObjList) (out : String) :
    (innerObj kvs out).1 = !(nonIndexableObj kvs) := by
  cases kvs with
  | nil => simp [innerObj, nonIndexableObj]
  | cons k v kvs =>
    simp only [innerObj, nonIndexableObj, Bool.not_and]
    rw [innerJ_flag v _, innerObj_flag kvs _]

end

mutual

theorem innerJ_frame (v : Value) (out : String) :
    (innerJ v out).1 = false → (innerJ v out).2 = out := by
  cases v with
  | null => intro _; rfl
  | bool b => intro h; simp [innerJ] at h
  | number n => intro h; simp [innerJ] at h
  | string s => intro h; simp [innerJ] at h
  | array xs => exact innerArr_frame xs out
  | object kvs => exact innerObj_frame kvs out

theorem innerArr_frame (xs : ValueList) (out : String) :
    (innerArr xs out).1 = false → (innerArr xs out).2 = out := by
  cases xs with
  | nil => intro _; rfl
  | cons v vs =>
    intro h
    simp only [innerArr, Bool.or_eq_false_iff] at h
    obtain ⟨h1, h2⟩ := h
    have hv := innerJ_frame v out h1
    simp only [innerArr, h1, hv, Bool.false_eq_true, if_false] at h2 ⊢
    exact innerArr_frame vs out h2

theorem innerObj_frame (kvs : ObjList) (out : String) :
    (innerObj kvs out).1 = false → (innerObj kvs out).2 = out := by
  cases kvs with
  | nil => intro _; rfl
  | cons k v kvs =>
    intro h
    simp only [innerObj, Bool.or_eq_false_iff] at h
    obtain ⟨h1, h2⟩ := h
    simp only [innerObj, h1, Bool.false_eq_true, if_false] at h2 ⊢
    exact innerObj_frame kvs out h2

end

mutual

theorem innerJ_mono (v : Value) (out : String) :
    out.length ≤ ((innerJ v out).2).length := by
  cases v with
  | null => exact le_refl _
  | bool b => simp [innerJ]
  | number n => simp [innerJ]
  | string s => simp [innerJ]
  | array xs => exact innerArr_mono xs out
  | object kvs => exact innerObj_mono kvs out

theorem innerArr_mono (xs : ValueList) (out : String) :
    out.length ≤ ((innerArr xs out).2).length := by
  cases xs with
  | nil => exact le_refl _
  | cons v vs =>
    simp only [innerArr]
    refine le_trans (innerJ_mono v out) (le_trans ?_ (innerArr_mono vs _))
    by_cases h : (innerJ v out).1 <;> simp [h]

theorem innerObj_mono (kvs : ObjList) (out : String) :
    out.length ≤ ((innerObj kvs out).2).length := by
  cases kvs with
  | nil => exact le_refl _
  | cons k v kvs =>
    simp only [innerObj]
    refine le_trans ?_ (innerObj_mono kvs _)
    by_cases h : (innerJ v (k ++ ": ")).1
    · simp only [h, if_true, String.length_append]
      omega
    · simp [h]

end

theorem innerArr_strict : ∀ (xs : ValueList) (out : String),
    (innerArr xs out).1 = true → out.length < ((innerArr xs out).2).length
  | .nil, out, h => by simp [innerArr] at h
  | .cons v vs, out, h => by
    simp only [innerArr]
    by_cases hv : (innerJ v out).1
    · have h1 : out.length < ((innerJ v out).2 ++ ". ").length := by
        have := innerJ_mono v out
        simp only [String.length_append]
        have h2 : 0 < ". ".length := by decide
        omega
      calc out.length < ((innerJ v out).2 ++ ". ").length := h1
        _ ≤ _ := by
          simpa [hv] using innerArr_mono vs ((innerJ v out).2 ++ ". ")
    · have hvf : (innerJ v out).1 = false := by simpa using hv
      have hframe := innerJ_frame v out hvf
      simp only [innerArr, Bool.or_eq_true] at h
      rcases h with h | h
      · exact absurd h hv
      · have h2 : (innerArr vs out).1 = true := by
          simpa [hvf, hframe] using h
        simpa [hvf, hframe] using innerArr_strict vs out h2

theorem innerObj_strict : ∀ (kvs : ObjList) (out : String),
    (innerObj kvs out).1 = true → out.length < ((innerObj kvs out).2).length
  | .nil, out, h => by simp [innerObj] at h
  | .cons k v kvs, out, h => by
    simp only [innerObj]
    by_cases hv : (innerJ v (k ++ ": ")).1
    · have h1 : out.length <
          (out ++ (innerJ v (k ++ ": ")).2 ++ ". ").length := by
        simp only [String.length_append]
        have h2 : 0 < ". ".length := by decide
        omega
      calc out.length < (out ++ (innerJ v (k ++ ": ")).2 ++ ". ").length := h1
        _ ≤ _ := by
          have h3 :=
            innerObj_mono kvs (out ++ (innerJ v (k ++ ": ")).2 ++ ". ")
          simpa [hv, String.length_append] using h3
    · have hvf : (innerJ v (k ++ ": ")).1 = false := by simpa using hv
      simp only [innerObj, Bool.or_eq_true] at h
      rcases h with h | h
      · exact absurd h hv
      · have h2 : (innerObj kvs out).1 = true := by simpa [hvf] using h
        simpa [hvf] using innerObj_strict kvs out h2

theorem natRender_pos (n : Nat) : 0 < (natRender n).length := by
  cases n with
  | zero => decide
  | succ m =>
    have h : natRender (m + 1) = ⟨(natDigitsRev (m + 1)).reverse⟩ := by
      simp [natRender]
    rw [h]
    show 0 < (natDigitsRev (m + 1)).reverse.length
    simp [natDigitsRev]

theorem numRender_pos (n : Int) : 0 < (numRender n).length := by
  unfold numRender
  by_cases h : n < 0
  · simp only [h, if_true, String.length_append]
    have h2 : ("-" : String).length = 1 := by decide
    omega
  · simp only [h, if_false]
    exact natRender_pos _

theorem boolRender_pos (b : Bool) : 0 < (boolRender b).length := by
  cases b <;> decide

/-- C3 counterexample: the flattener applied to a top-level empty string
returns that empty string rather than a non-empty string or "not
indexable". -/
theorem flatten_returns_empty_string :
    json_to_string (Value.string "") "" = some "" ∧
      ¬ json_to_string (Value.string "") "" = none := by
  constructor
  · rfl
  · intro h
    simp [json_to_string] at h

/-- C3 amended: for every semi-structured value the flattener totally returns
either a string or "not indexable"; the returned string is non-empty except
when the value itself is a top-level string, which is returned verbatim and
may be empty; and "not indexable" is returned exactly for null and for
composites all of whose parts are recursively non-indexable (in particular
empty arrays and empty objects). -/
theorem flatten_totality_amended (v : Value) :
    (json_to_string v "" = none ↔ nonIndexable v = true) ∧
      ∀ s, json_to_string v "" = some s →
        0 < s.length ∨ v = Value.string s := by
  cases v with
  | string s =>
    refine ⟨⟨fun h => ?_, fun h => ?_⟩, fun t ht => ?_⟩
    · simp [json_to_string] at h
    · simp [nonIndexable] at h
    · simp only [json_to_string, Option.some.injEq] at ht
      right
      rw [ht]
  | null =>
    refine ⟨⟨fun h => rfl, fun h => rfl⟩, fun t ht => ?_⟩
    simp [json_to_string, innerJ] at ht
  | bool b =>
    refine ⟨⟨fun h => ?_, fun h => ?_⟩, fun t ht => ?_⟩
    · simp [json_to_string, innerJ] at h
    · simp [nonIndexable] at h
    · simp only [json_to_string, innerJ, if_true, Option.some.injEq] at ht
      left
      rw [← ht]
      simpa [String.length_append] using boolRender_pos b
  | number n =>
    refine ⟨⟨fun h => ?_, fun h => ?_⟩, fun t ht => ?_⟩
    · simp [json_to_string, innerJ] at h
    · simp [nonIndexable] at h
    · simp only [json_to_string, innerJ, if_true, Option.some.injEq] at ht
      left
      rw [← ht]
      simpa [String.length_append] using numRender_pos n
  | array xs =>
    by_cases hni : nonIndexableArr xs
    · have hflag : (innerJ (Value.array xs) "").1 = false := by
        rw [innerJ_flag]
        simp [nonIndexable, hni]
      refine ⟨⟨fun h => ?_, fun h => ?_⟩, fun t ht => ?_⟩
      · simp [nonIndexable, hni]
      · simp [json_to_string, hflag]
      · simp [json_to_string, hflag] at ht
    · have hflag : (innerJ (Value.array xs) "").1 = true := by
        rw [innerJ_flag]
        simp [nonIndexable, hni]
      refine ⟨⟨fun h => ?_, fun h => ?_⟩, fun t ht => ?_⟩
      · simp [json_to_string, hflag] at h
      · simp [nonIndexable, hni] at h
      · simp only [json_to_string, hflag, if_true, Option.some.injEq] at ht
        left
        rw [← ht]
        exact innerArr_strict xs "" (by simpa [innerJ] using hflag)
  | object kvs =>
    by_cases hni : nonIndexableObj kvs
    · have hflag : (innerJ (Value.object kvs) "").1 = false := by
        rw [innerJ_flag]
        simp [nonIndexable, hni]
      refine ⟨⟨fun h => ?_, fun h => ?_⟩, fun t ht => ?_⟩
      · simp [nonIndexable, hni]
      · simp [json_to_string, hflag]
      · simp [json_to_string, hflag] at ht
    · have hflag : (innerJ (Value.object kvs) "").1 = true := by
        rw [innerJ_flag]
        simp [nonIndexable, hni]
      refine ⟨⟨fun h => ?_, fun h => ?_⟩, fun t ht => ?_⟩
      · simp [json_to_string, hflag] at h
      · simp [nonIndexable, hni] at h
      · simp only [json_to_string, hflag, if_true, Option.some.injEq] at ht
        left
        rw [← ht]
        exact innerObj_strict kvs "" (by simpa [innerJ] using hflag)

theorem flatten_totality_amended_witness :
    0 < ("true" : String).length ∨ Value.bool true = Value.string "true" :=
  (flatten_totality_amended (Value.bool true)).2 "true" rfl

/-- C9: whenever flattening a sub-value reports not indexable, the output
buffer it was given is returned exactly as it was — a failed subtree
contributes no partial bytes. -/
theorem flatten_subvalue_frame (v : Value) (out : String) :
    (innerJ v out).1 = false → (innerJ v out).2 = out :=
  innerJ_frame v out

theorem flatten_subvalue_frame_witness :
    (innerJ (Value.array (ValueList.cons Value.null ValueList.nil))
        "sibling").2 = "sibling" :=
  flatten_subvalue_frame (Value.array (ValueList.cons Value.null ValueList.nil))
    "sibling" rfl

/-! ### Position Encoder and Batch Extractor -/

/-- Modelled from the spec: the attribute span constant
`crate::proximity::ONE_ATTRIBUTE`, whose defining module is not among the
provided sources; the specification treats it as a fixed large positive
tuning constant whose exact value is configuration.  The value used by the
crate is 1000; none of the theorems below depends on the exact value beyond
its positivity and smallness relative to 2^32. -/
def ONE_ATTRIBUTE : Nat := 1000

/-- The number of values of a `u32`; offsets are reduced modulo this where
the Rust code truncates (`as u32`) or wraps (u32 arithmetic). -/
def U32SIZE : Nat := 2 ^ 32

/-- Modelled from the spec/standard library: `str::trim`, removing leading
and trailing whitespace (ASCII whitespace suffices for every text the claims
touch). -/
def strTrim (s : String) : String :=
  ⟨((s.data.dropWhile Char.isWhitespace).reverse.dropWhile
      Char.isWhitespace).reverse⟩

/-- Big-endian bytes of a 32-bit document id, as `u32::to_be_bytes`. -/
def beBytes32 (n : Nat) : List Nat :=
  [n / 2 ^ 24 % 256, n / 2 ^ 16 % 256, n / 2 ^ 8 % 256, n % 256]

/-- UTF-8 encoding of one character, as `str::as_bytes` exposes it. -/
def utf8Char (c : Char) : List Nat :=
  let n := c.toNat
  if n < 128 then [n]
  else if n < 2048 then [192 + n / 64, 128 + n % 64]
  else if n < 65536 then [224 + n / 4096, 128 + n / 64 % 64, 128 + n % 64]
  else
    [240 + n / 262144, 128 + n / 4096 % 64, 128 + n / 64 % 64, 128 + n % 64]

/-- UTF-8 bytes of a string (`str::as_bytes`). -/
def utf8Bytes (s : String) : List Nat := s.data.flatMap utf8Char

/-- The error constructors of the extraction call that the claims touch;
`invalidNumberSerialization` is `SerializationError::InvalidNumberSerialization`. -/
inductive ExtractError where
  | invalidNumberSerialization
deriving DecidableEq

/-- Mirrors the per-token body of the field loop (lines 68-80): trim the
token text and skip it when empty; otherwise convert the relative offset to
`u32` — an unrepresentable offset aborts the whole call with
`InvalidNumberSerialization` — rebase it by `field_id * ONE_ATTRIBUTE` in
wrapping 32-bit arithmetic, and emit the posting
(doc-id big-endian bytes concatenated with the term bytes, position). -/
def emitTokens (docId fieldId : Nat) :
    List (Nat × Token) → Except ExtractError (List (List Nat × Nat))
  | [] => .ok []
  | (index, tok) :: rest =>
    let token := strTrim tok.text
    if token = "" then emitTokens docId fieldId rest
    else if index < U32SIZE then
      match emitTokens docId fieldId rest with
      | .ok ps =>
        .ok ((beBytes32 docId ++ utf8Bytes token,
          (fieldId * ONE_ATTRIBUTE + index) % U32SIZE) :: ps)
      | .error e => .error e
    else .error .invalidNumberSerialization

/-- Mirrors the per-field body (lines 62-81) for an already-deserialized
value: flatten into a cleared buffer, tokenize with the externally supplied
analyzer, assign relative offsets, truncate at the attribute span — comparing
the offset truncated to 32 bits, exactly as `(*p as u32) < ONE_ATTRIBUTE`
does — and emit the surviving tokens. -/
def extractField (analyzer : String → List Token) (docId fieldId : Nat)
    (value : Value) : Except ExtractError (List (List Nat × Nat)) :=
  match json_to_string value "" with
  | none => .ok []
  | some field =>
    emitTokens docId fieldId
      ((process_tokens (analyzer field)).takeWhile
        (fun p => p.1 % U32SIZE < ONE_ATTRIBUTE))

/-- Mirrors the field loop (lines 58-84): fields whose id fails the optional
searchable-field filter are skipped; the others are extracted in field-map
order. -/
def extractFields (analyzer : String → List Token)
    (searchable_fields : Option (List Nat)) (docId : Nat) :
    List (Nat × Value) → Except ExtractError (List (List Nat × Nat))
  | [] => .ok []
  | (fieldId, v) :: rest =>
    if (match searchable_fields with
        | none => true
        | some sf => sf.contains fieldId) then
      match extractField analyzer docId fieldId v with
      | .ok ps =>
        match extractFields analyzer searchable_fields docId rest with
        | .ok rest2 => .ok (ps ++ rest2)
        | .error e => .error e
      | .error e => .error e
    else extractFields analyzer searchable_fields docId rest

/-- `RoaringBitmap::push`: appends the value only when it is strictly greater
than the current maximum; the boolean result is ignored by the caller. -/
def bitmapPush (ids : List Nat) (v : Nat) : List Nat :=
  match ids.getLast? with
  | none => [v]
  | some m => if m < v then ids ++ [v] else ids

/-- Mirrors the document loop of `extract_docid_word_positions`
(lines 47-85): for each (document id, field map) pair of the batch, push the
id into the document-id set, then extract every eligible field, accumulating
the emitted postings in encounter order. -/
def extractLoop (analyzer : String → List Token)
    (searchable_fields : Option (List Nat)) :
    List (Nat × List (Nat × Value)) → List Nat →
      Except ExtractError (List Nat × List (List Nat × Nat))
  | [], ids => .ok (ids, [])
  | (docId, fields) :: rest, ids =>
    let ids2 := bitmapPush ids docId
    match extractFields analyzer searchable_fields docId fields with
    | .ok ps =>
      match extractLoop analyzer searchable_fields rest ids2 with
      | .ok (ids3, rest2) => .ok (ids3, ps ++ rest2)
      | .error e => .error e
    | .error e => .error e

/-- Mirrors `extract_docid_word_positions` (lines 22-88) over a decoded
batch: the batch is the sequence of (document id, field map) pairs the
grenad reader yields, the analyzer is the external tokenizer applied to each
flattened field, and the result pairs the document-id set with the inserted
postings. -/
def extract_docid_word_positions (analyzer : String → List Token)
    (searchable_fields : Option (List Nat))
    (batch : List (Nat × List (Nat × Value))) :
    Except ExtractError (List Nat × List (List Nat × Nat)) :=
  extractLoop analyzer searchable_fields batch []

/-- Configuration of the external analyzer; only the stop-word slot matters
to the claims. -/
structure AnalyzerConfig where
  stop_words : Option (List String)
deriving DecidableEq

/-- `AnalyzerConfig::default()`: no stop words. -/
def AnalyzerConfig.default : AnalyzerConfig := ⟨none⟩

/-- Mirrors lines 41-45 of the extraction source: a local `config` is built
and, when a stop-word set is supplied, the set is installed into it — but the
analyzer is then constructed from `AnalyzerConfig::default()`, not from
`config`, so the configuration actually used is always the default one. -/
def analyzerConfigUsed (stop_words : Option (List String)) : AnalyzerConfig :=
  let _config : AnalyzerConfig :=
    match stop_words with
    | some sw => { stop_words := some sw }
    | none => AnalyzerConfig.default
  AnalyzerConfig.default

/-- Modelled from the spec: the external tokenizer's output on the text
"hello world" — two word tokens separated by a single soft (whitespace)
separator.  Other inputs are irrelevant to the claims that use it. -/
def helloWorldAnalyzer (s : String) : List Token :=
  if s = "hello world" then
    [⟨.Word, "hello"⟩, ⟨.Separator .Soft, " "⟩, ⟨.Word, "world"⟩]
  else []

/-- C1 (code bug): the configuration the analyzer is actually built from is
always the default one — a supplied stop-word set is installed into a local
`config` that is then discarded, so the tokenizer is never configured with
the supplied stop words. -/
theorem stop_words_never_applied (sw : List String) :
    analyzerConfigUsed (some sw) = AnalyzerConfig.default ∧
      analyzerConfigUsed (some sw) ≠ ⟨some sw⟩ := by
  constructor
  · rfl
  · intro h
    simp [analyzerConfigUsed, AnalyzerConfig.default] at h

/-- C2 counterexample: a relative offset equal to 2^32 passes the
32-bit-truncated span check, yet the encoder does not silently drop it — the
call aborts with `InvalidNumberSerialization`. -/
theorem unrepresentable_offset_aborts :
    U32SIZE % U32SIZE < ONE_ATTRIBUTE ∧
      emitTokens 0 0 [(U32SIZE, ⟨.Word, "a"⟩)] =
        .error .invalidNumberSerialization := by
  constructor
  · simp [ONE_ATTRIBUTE]
  · rfl

theorem emitTokens_ok_of_bounded (docId fieldId : Nat) :
    ∀ ts : List (Nat × Token),
      (∀ p ∈ ts, strTrim p.2.text ≠ "" → p.1 < U32SIZE) →
        ∃ ps, emitTokens docId fieldId ts = .ok ps := by
  intro ts
  induction ts with
  | nil => intro _; exact ⟨[], rfl⟩
  | cons p rest ih =>
    intro h
    obtain ⟨index, tok⟩ := p
    obtain ⟨ps, hps⟩ := ih (fun q hq => h q (List.mem_cons_of_mem _ hq))
    by_cases he : strTrim tok.text = ""
    · exact ⟨ps, by simpa [emitTokens, he] using hps⟩
    · have hlt : index < U32SIZE :=
        h (index, tok) (List.mem_cons_self _ _) he
      exact ⟨(beBytes32 docId ++ utf8Bytes (strTrim tok.text),
          (fieldId * ONE_ATTRIBUTE + index) % U32SIZE) :: ps,
        by simp [emitTokens, he, hlt, hps]⟩

/-- C2 amended: the two safeguards behave differently.  A token whose
32-bit-truncated relative offset reaches `ONE_ATTRIBUTE` is silently dropped
by the span bound before the encoder runs (and encoding any stream whose
nonempty-text tokens all carry `u32`-representable offsets succeeds, so this
drop never aborts), but a relative offset that cannot be represented as
`u32` on a token with nonempty trimmed text aborts the whole call with
`InvalidNumberSerialization` rather than being dropped. -/
theorem span_truncation_vs_width_abort (docId fieldId : Nat)
    (ts : List (Nat × Token)) (index : Nat) (tok : Token) :
    ((∀ p ∈ ts, strTrim p.2.text ≠ "" → p.1 < U32SIZE) →
        ∃ ps, emitTokens docId fieldId ts = .ok ps) ∧
      (ONE_ATTRIBUTE ≤ index % U32SIZE →
        ((index, tok) :: ts).takeWhile
            (fun p => p.1 % U32SIZE < ONE_ATTRIBUTE) = []) ∧
      (strTrim tok.text ≠ "" → U32SIZE ≤ index →
        emitTokens docId fieldId ((index, tok) :: ts) =
          .error .invalidNumberSerialization) := by
  refine ⟨emitTokens_ok_of_bounded docId fieldId ts, fun h => ?_, ?_⟩
  · simp [List.takeWhile_cons, Nat.not_lt.mpr h]
  · intro hne h32
    simp [emitTokens, hne, Nat.not_lt.mpr h32]

theorem span_truncation_vs_width_abort_witness :
    (∃ ps, emitTokens 3 1 [(0, ⟨.Word, "w"⟩)] = .ok ps) ∧
      ([((1000 : Nat), (⟨.Word, "x"⟩ : Token))].takeWhile
          (fun p => p.1 % U32SIZE < ONE_ATTRIBUTE) = []) ∧
      emitTokens 3 1 [(U32SIZE, ⟨.Word, "y"⟩)] =
        .error .invalidNumberSerialization := by
  refine ⟨?_, ?_, ?_⟩
  · exact (span_truncation_vs_width_abort 3 1 [(0, ⟨.Word, "w"⟩)] 0
      ⟨.Word, "w"⟩).1 (by decide)
  · exact (span_truncation_vs_width_abort 3 1 [] 1000 ⟨.Word, "x"⟩).2.1
      (by decide)
  · exact (span_truncation_vs_width_abort 3 1 [] U32SIZE ⟨.Word, "y"⟩).2.2
      (by decide) (le_refl _)

theorem emitTokens_mem (docId fieldId : Nat) :
    ∀ (ts : List (Nat × Token)) (ps : List (List Nat × Nat)),
      emitTokens docId fieldId ts = .ok ps →
        ∀ q ∈ ps, ∃ p ∈ ts, p.1 < U32SIZE ∧
          q.2 = (fieldId * ONE_ATTRIBUTE + p.1) % U32SIZE := by
  intro ts
  induction ts with
  | nil =>
    intro ps h q hq
    simp only [emitTokens, Except.ok.injEq] at h
    subst h
    simp at hq
  | cons p rest ih =>
    intro ps h q hq
    obtain ⟨index, tok⟩ := p
    by_cases he : strTrim tok.text = ""
    · simp only [emitTokens, he, if_true] at h
      obtain ⟨r, hr, h1, h2⟩ := ih ps h q hq
      exact ⟨r, List.mem_cons_of_mem _ hr, h1, h2⟩
    · by_cases hlt : index < U32SIZE
      · simp only [emitTokens, he, hlt, if_true, if_false] at h
        cases hrest : emitTokens docId fieldId rest with
        | error e => rw [hrest] at h; exact absurd h (by simp)
        | ok ps2 =>
          rw [hrest] at h
          simp only [Except.ok.injEq] at h
          subst h
          rcases List.mem_cons.mp hq with rfl | hq2
          · exact ⟨(index, tok), List.mem_cons_self _ _, hlt, rfl⟩
          · obtain ⟨r, hr, h1, h2⟩ := ih ps2 hrest q hq2
            exact ⟨r, List.mem_cons_of_mem _ hr, h1, h2⟩
      · simp [emitTokens, he, hlt] at h

/-- C5: every posting a successful field extraction emits lies inside that
field's position range: the position is `field_id * ONE_ATTRIBUTE` plus a
relative offset strictly below `ONE_ATTRIBUTE` (tokens whose offset reaches
the span yield no posting), and dividing the position by the span recovers
the field id, so positions never cross into another field's range. -/
theorem span_and_field_range (analyzer : String → List Token)
    (docId fieldId : Nat) (v : Value) (ps : List (List Nat × Nat))
    (hf : fieldId < 2 ^ 16)
    (h : extractField analyzer docId fieldId v = .ok ps) :
    ∀ q ∈ ps, fieldId * ONE_ATTRIBUTE ≤ q.2 ∧
      q.2 < fieldId * ONE_ATTRIBUTE + ONE_ATTRIBUTE ∧
      q.2 / ONE_ATTRIBUTE = fieldId := by
  intro q hq
  unfold extractField at h
  cases hj : json_to_string v "" with
  | none =>
    rw [hj] at h
    simp only [Except.ok.injEq] at h
    subst h
    simp at hq
  | some field =>
    rw [hj] at h
    obtain ⟨p, hp, hlt, hq2⟩ := emitTokens_mem docId fieldId _ ps h q hq
    have hguard : p.1 % U32SIZE < ONE_ATTRIBUTE := by
      have h2 := List.mem_takeWhile_imp hp
      simpa using h2
    have hsmall : p.1 < ONE_ATTRIBUTE := by
      rwa [Nat.mod_eq_of_lt hlt] at hguard
    have hf2 : fieldId < 65536 := by simpa using hf
    have hA : ONE_ATTRIBUTE = 1000 := rfl
    have hnowrap : fieldId * ONE_ATTRIBUTE + p.1 < U32SIZE := by
      have hU : U32SIZE = 4294967296 := by norm_num [U32SIZE]
      rw [hA] at hsmall ⊢
      rw [hU]
      omega
    rw [hq2, Nat.mod_eq_of_lt hnowrap]
    refine ⟨Nat.le_add_right _ _, by omega, ?_⟩
    rw [hA] at hsmall ⊢
    omega

theorem span_and_field_range_witness :
    2 * ONE_ATTRIBUTE ≤ 2000 ∧ 2000 < 2 * ONE_ATTRIBUTE + ONE_ATTRIBUTE ∧
      2000 / ONE_ATTRIBUTE = 2 :=
  span_and_field_range helloWorldAnalyzer 7 2 (Value.string "hello world")
    [(beBytes32 7 ++ utf8Bytes "hello", 2000),
      (beBytes32 7 ++ utf8Bytes "world", 2001)]
    (by decide) rfl (beBytes32 7 ++ utf8Bytes "hello", 2000)
    (List.mem_cons_self _ _)

theorem bitmapPush_append (ids : List Nat) (v : Nat)
    (h : ∀ i ∈ ids, i < v) : bitmapPush ids v = ids ++ [v] := by
  unfold bitmapPush
  cases hl : ids.getLast? with
  | none =>
    have hnil : ids = [] := by simpa using hl
    simp [hnil]
  | some m =>
    have hm : m ∈ ids := by
      obtain ⟨hne, heq⟩ :=
        List.mem_getLast?_eq_getLast (l := ids) (x := m) (by rw [hl]; rfl)
      rw [heq]
      exact List.getLast_mem hne
    simp [h m hm]

theorem extractLoop_ids (analyzer : String → List Token)
    (searchable_fields : Option (List Nat)) :
    ∀ (batch : List (Nat × List (Nat × Value))) (ids : List Nat),
      (∀ i ∈ ids, ∀ d ∈ batch.map Prod.fst, i < d) →
      (batch.map Prod.fst).Pairwise (· < ·) →
      ∀ r ps, extractLoop analyzer searchable_fields batch ids = .ok (r, ps) →
        r = ids ++ batch.map Prod.fst := by
  intro batch
  induction batch with
  | nil =>
    intro ids _ _ r ps h
    simp only [extractLoop, Except.ok.injEq, Prod.mk.injEq] at h
    simp [← h.1]
  | cons doc rest ih =>
    intro ids hlt hsorted r ps h
    obtain ⟨d, fields⟩ := doc
    have hpush : bitmapPush ids d = ids ++ [d] :=
      bitmapPush_append ids d
        (fun i hi => hlt i hi d (by simp))
    simp only [extractLoop, hpush] at h
    cases hfs : extractFields analyzer searchable_fields d fields with
    | error e => rw [hfs] at h; exact absurd h (by simp)
    | ok ps1 =>
      rw [hfs] at h
      cases hloop : extractLoop analyzer searchable_fields rest (ids ++ [d])
        with
      | error e => rw [hloop] at h; exact absurd h (by simp)
      | ok pr =>
        obtain ⟨ids3, rest2⟩ := pr
        rw [hloop] at h
        simp only [Except.ok.injEq, Prod.mk.injEq] at h
        have hsorted2 : (rest.map Prod.fst).Pairwise (· < ·) :=
          (List.pairwise_cons.mp (by simpa using hsorted)).2
        have hd : ∀ e ∈ rest.map Prod.fst, d < e :=
          (List.pairwise_cons.mp (by simpa using hsorted)).1
        have hlt2 : ∀ i ∈ ids ++ [d], ∀ e ∈ rest.map Prod.fst, i < e := by
          intro i hi e he
          rcases List.mem_append.mp hi with hi | hi
          · exact hlt i hi e (by simp [he])
          · simp only [List.mem_singleton] at hi
            subst hi
            exact hd e he
        have := ih (ids ++ [d]) hlt2 hsorted2 ids3 rest2 hloop
        rw [← h.1, this]
        simp

/-- C6: after a successful extraction call over a batch whose document ids
are strictly increasing — which is how the sorted, unique-keyed grenad
reader yields them — the returned document-id set is exactly the sequence of
ids of the input batch, regardless of the fields' contents. -/
theorem document_set_complete (analyzer : String → List Token)
    (searchable_fields : Option (List Nat))
    (batch : List (Nat × List (Nat × Value))) (ids : List Nat)
    (ps : List (List Nat × Nat))
    (hsorted : (batch.map Prod.fst).Pairwise (· < ·))
    (h : extract_docid_word_positions analyzer searchable_fields batch =
      .ok (ids, ps)) :
    ids = batch.map Prod.fst := by
  have := extractLoop_ids analyzer searchable_fields batch []
    (by simp) hsorted ids ps h
  simpa using this

theorem document_set_complete_witness :
    ([1, 5] : List Nat) =
      ([(1, []), (5, [])] : List (Nat × List (Nat × Value))).map Prod.fst :=
  document_set_complete helloWorldAnalyzer none [(1, []), (5, [])] [1, 5] []
    (by simp) rfl

/-- C7: for the batch containing document id 7 whose field 0 holds the text
"hello world", the emitted postings are exactly the key `[0,0,0,7]` followed
by the UTF-8 bytes of "hello" with position 0, and the same prefix followed
by the bytes of "world" with position 1; the big-endian id prefix and the
byte renderings are spelled out. -/
theorem key_structure_roundtrip :
    extract_docid_word_positions helloWorldAnalyzer none
        [(7, [(0, Value.string "hello world")])] =
      .ok ([7],
        [(beBytes32 7 ++ utf8Bytes "hello", 0),
          (beBytes32 7 ++ utf8Bytes "world", 1)]) ∧
      beBytes32 7 = [0, 0, 0, 7] ∧
      utf8Bytes "hello" = [104, 101, 108, 108, 111] ∧
      utf8Bytes "world" = [119, 111, 114, 108, 100] :=
  ⟨rfl, rfl, rfl, rfl⟩

/-! ### Sort-expression parser (`src/milli/src/asc_desc.rs`) -/

/-- The error type of the sort-expression parser (`AscDescError`).  Names are
carried as character lists, mirroring Rust string slices. -/
inductive AscDescError where
  | InvalidLatitude
  | InvalidLongitude
  | InvalidSyntax (name : List Char)
  | ReservedKeyword (name : List Char)
deriving DecidableEq

/-- `Member`: a plain sort field or a geo point.  Coordinates are modelled as
exact rationals in place of IEEE `f64`: the standard library's float parser
is an external capability, and the decimal literals the claims quantify over
are evaluated exactly. -/
inductive Member where
  | Field (name : List Char)
  | Geo (lat lng : ℚ)
deriving DecidableEq

/-- `AscDesc`: a member with a sort direction. -/
inductive AscDesc where
  | Asc (m : Member)
  | Desc (m : Member)
deriving DecidableEq

/-- `str::strip_prefix`: remove the pattern from the front, if present. -/
def stripPre : List Char → List Char → Option (List Char)
  | [], s => some s
  | _ :: _, [] => none
  | p :: ps, c :: cs => if p = c then stripPre ps cs else none

/-- `str::strip_suffix`: remove the pattern from the end, if present. -/
def stripSuf (pat s : List Char) : Option (List Char) :=
  (stripPre pat.reverse s.reverse).map List.reverse

/-- Split at the first character satisfying the predicate. -/
def splitOnceBy (p : Char → Bool) : List Char → Option (List Char × List Char)
  | [] => none
  | x :: xs =>
    if p x then some ([], xs)
    else (splitOnceBy p xs).map (fun q => (x :: q.1, q.2))

/-- `str::split_once(c)`: split at the first occurrence of the character. -/
def splitOnce (c : Char) (s : List Char) : Option (List Char × List Char) :=
  splitOnceBy (fun x => x == c) s

/-- `str::rsplit_once(c)`: split at the last occurrence of the character. -/
def rsplitOnce (c : Char) (s : List Char) : Option (List Char × List Char) :=
  (splitOnce c s.reverse).map (fun q => (q.2.reverse, q.1.reverse))

/-- `str::trim`, over character lists. -/
def trimChars (s : List Char) : List Char :=
  ((s.dropWhile Char.isWhitespace).reverse.dropWhile Char.isWhitespace).reverse

/-- All characters are ASCII digits. -/
def allDigits (cs : List Char) : Bool := cs.all Char.isDigit

/-- Numeric value of a digit string, most significant digit first. -/
def digitsToNat (cs : List Char) : Nat :=
  cs.foldl (fun a c => a * 10 + (c.toNat - 48)) 0

/-- Modelled from the spec/standard library: the mantissa of Rust's decimal
float grammar — `Digit+ | Digit+ '.' Digit* | Digit* '.' Digit+` — evaluated
exactly. -/
def parseMantissa (cs : List Char) : Option ℚ :=
  match splitOnce '.' cs with
  | none =>
    if cs ≠ [] ∧ allDigits cs then some ((digitsToNat cs : ℚ)) else none
  | some (ip, fp) =>
    if (ip ≠ [] ∨ fp ≠ []) ∧ allDigits ip ∧ allDigits fp then
      some ((digitsToNat ip : ℚ) +
        (digitsToNat fp : ℚ) / (10 : ℚ) ^ fp.length)
    else none

/-- The exponent of the float grammar: an optional sign then digits. -/
def parseExp (cs : List Char) : Option Int :=
  match cs with
  | '+' :: rest =>
    if rest ≠ [] ∧ allDigits rest then some ((digitsToNat rest : Int))
    else none
  | '-' :: rest =>
    if rest ≠ [] ∧ allDigits rest then some (-(digitsToNat rest : Int))
    else none
  | _ =>
    if cs ≠ [] ∧ allDigits cs then some ((digitsToNat cs : Int)) else none

/-- Unsigned number: a mantissa with an optional `e`/`E` exponent. -/
def parseUnsigned (cs : List Char) : Option ℚ :=
  match splitOnceBy (fun c => c == 'e' || c == 'E') cs with
  | none => parseMantissa cs
  | some (m, e) =>
    match parseMantissa m, parseExp e with
    | some mv, some ev => some (mv * (10 : ℚ) ^ ev)
    | _, _ => none

/-- Modelled from the spec/standard library: `f64::from_str` on finite
decimal literals, evaluated exactly over the rationals; the `inf`/`NaN`
spellings are outside the claims' scope. -/
def parseNum (cs : List Char) : Option ℚ :=
  match cs with
  | '+' :: rest => parseUnsigned rest
  | '-' :: rest => (parseUnsigned rest).map Neg.neg
  | _ => parseUnsigned cs

/-- Modelled from the spec: `crate::error::is_reserved_keyword`, whose
defining module is not among the provided sources; the reserved keywords
visible in the tests are `_geo`, `_geoDistance`, `_geoPoint`, `_geoRadius`. -/
def is_reserved_keyword (s : List Char) : Bool :=
  s == "_geo".data || s == "_geoDistance".data || s == "_geoPoint".data ||
    s == "_geoRadius".data

/-- The `None` arm of `Member::from_str` (lines 90-95): reserved keywords and
`_geoRadius(` uses are rejected, anything else is a plain field. -/
def memberFieldArm (text : List Char) : Except AscDescError Member :=
  if is_reserved_keyword text ||
      (stripPre "_geoRadius(".data text).isSome then
    .error (.ReservedKeyword text)
  else .ok (.Field text)

/-- Mirrors `Member::from_str` (lines 71-98): a `_geoPoint(lat, lng)` form is
split at the first comma, both coordinates are parsed (trimmed first), the
latitude range is checked before the longitude range, and anything that fails
prefix/suffix/comma/number parsing falls back to the reserved-keyword or
plain-field handling. -/
def Member.from_str (text : List Char) : Except AscDescError Member :=
  match stripPre "_geoPoint(".data text with
  | some afterPre =>
    match stripSuf ")".data afterPre with
    | some point =>
      match splitOnce ',' point with
      | none => .error (.ReservedKeyword text)
      | some (latS, lngS) =>
        match parseNum (trimChars latS), parseNum (trimChars lngS) with
        | some lat, some lng =>
          if ¬(-90 ≤ lat ∧ lat ≤ 90) then .error .InvalidLatitude
          else if ¬(-180 ≤ lng ∧ lng ≤ 180) then .error .InvalidLongitude
          else .ok (.Geo lat lng)
        | _, _ => .error (.ReservedKeyword text)
    | none => memberFieldArm text
  | none => memberFieldArm text

/-- Mirrors `AscDesc::from_str` (lines 147-154): split at the last colon and
require the right part to be `asc` or `desc`. -/
def AscDesc.from_str (text : List Char) : Except AscDescError AscDesc :=
  match rsplitOnce ':' text with
  | some (left, right) =>
    if right = "asc".data then
      match Member.from_str left with
      | .ok m => .ok (.Asc m)
      | .error e => .error e
    else if right = "desc".data then
      match Member.from_str left with
      | .ok m => .ok (.Desc m)
      | .error e => .error e
    else .error (.InvalidSyntax text)
  | none => .error (.InvalidSyntax text)

theorem stripPre_append (p r : List Char) : stripPre p (p ++ r) = some r := by
  induction p with
  | nil => rfl
  | cons c cs ih => simp [stripPre, ih]

theorem stripSuf_append (q r : List Char) : stripSuf q (r ++ q) = some r := by
  simp [stripSuf, List.reverse_append, stripPre_append]

theorem splitOnceBy_append (p : Char → Bool) (l : List Char) :
    ∀ (r : List Char) (c : Char), (∀ x ∈ l, p x = false) → p c = true →
      splitOnceBy p (l ++ c :: r) = some (l, r) := by
  induction l with
  | nil => intro r c _ hc; simp [splitOnceBy, hc]
  | cons x xs ih =>
    intro r c hl hc
    have hx : p x = false := hl x (List.mem_cons_self _ _)
    simp [splitOnceBy, hx,
      ih r c (fun y hy => hl y (List.mem_cons_of_mem _ hy)) hc]

theorem splitOnce_append (l r : List Char) (c : Char)
    (hl : ∀ x ∈ l, x ≠ c) : splitOnce c (l ++ c :: r) = some (l, r) := by
  apply splitOnceBy_append
  · intro x hx
    simpa using hl x hx
  · simp

theorem rsplitOnce_append (base suffix : List Char) (c : Char)
    (h : ∀ x ∈ suffix, x ≠ c) :
    rsplitOnce c (base ++ c :: suffix) = some (base, suffix) := by
  unfold rsplitOnce
  have hrev : (base ++ c :: suffix).reverse =
      suffix.reverse ++ c :: base.reverse := by
    simp [List.reverse_append]
  rw [hrev,
    splitOnce_append suffix.reverse base.reverse c
      (fun x hx => h x (by simpa using hx))]
  simp

theorem member_geo_range (slat slng : List Char) (lat lng : ℚ)
    (hlat : parseNum (trimChars slat) = some lat)
    (hlng : parseNum (trimChars slng) = some lng)
    (hcomma : ∀ x ∈ slat, x ≠ ',') :
    Member.from_str ("_geoPoint(".data ++ (slat ++ ',' :: (slng ++ ")".data)))
      = if -90 ≤ lat ∧ lat ≤ 90 then
          if -180 ≤ lng ∧ lng ≤ 180 then .ok (.Geo lat lng)
          else .error .InvalidLongitude
        else .error .InvalidLatitude := by
  have h1 := stripPre_append "_geoPoint(".data
    (slat ++ ',' :: (slng ++ ")".data))
  have h2 : stripSuf ")".data (slat ++ ',' :: (slng ++ ")".data)) =
      some (slat ++ ',' :: slng) := by
    rw [show slat ++ ',' :: (slng ++ ")".data) =
        (slat ++ ',' :: slng) ++ ")".data by simp]
    exact stripSuf_append _ _
  have h3 : splitOnce ',' (slat ++ ',' :: slng) = some (slat, slng) :=
    splitOnce_append slat slng ',' hcomma
  simp only [Member.from_str, h1, h2, h3, hlat, hlng]
  by_cases h90 : -90 ≤ lat ∧ lat ≤ 90 <;>
    by_cases h180 : -180 ≤ lng ∧ lng ≤ 180 <;>
      simp [h90, h180]

/-- C10: parsing `_geoPoint(lat, lng):asc` (or `:desc`) for parseable decimal
coordinate literals succeeds with the geo member exactly when the latitude
lies in [-90, 90] and the longitude in [-180, 180]; an out-of-range latitude
fails with `InvalidLatitude` (checked first), and an in-range latitude with an
out-of-range longitude fails with `InvalidLongitude`. -/
theorem geo_sort_range_validation (slat slng : List Char) (lat lng : ℚ)
    (hlat : parseNum (trimChars slat) = some lat)
    (hlng : parseNum (trimChars slng) = some lng)
    (hcomma : ∀ x ∈ slat, x ≠ ',') :
    (AscDesc.from_str
        (("_geoPoint(".data ++ (slat ++ ',' :: (slng ++ ")".data))) ++
          ':' :: "asc".data) =
      if -90 ≤ lat ∧ lat ≤ 90 then
        if -180 ≤ lng ∧ lng ≤ 180 then .ok (.Asc (.Geo lat lng))
        else .error .InvalidLongitude
      else .error .InvalidLatitude) ∧
    (AscDesc.from_str
        (("_geoPoint(".data ++ (slat ++ ',' :: (slng ++ ")".data))) ++
          ':' :: "desc".data) =
      if -90 ≤ lat ∧ lat ≤ 90 then
        if -180 ≤ lng ∧ lng ≤ 180 then .ok (.Desc (.Geo lat lng))
        else .error .InvalidLongitude
      else .error .InvalidLatitude) := by
  have hmem := member_geo_range slat slng lat lng hlat hlng hcomma
  have hsplitA := rsplitOnce_append
    ("_geoPoint(".data ++ (slat ++ ',' :: (slng ++ ")".data)))
    "asc".data ':' (by decide)
  have hsplitD := rsplitOnce_append
    ("_geoPoint(".data ++ (slat ++ ',' :: (slng ++ ")".data)))
    "desc".data ':' (by decide)
  have hne : ("desc".data : List Char) ≠ "asc".data := by decide
  constructor
  · simp only [AscDesc.from_str, hsplitA, if_pos rfl, hmem]
    by_cases h90 : -90 ≤ lat ∧ lat ≤ 90 <;>
      by_cases h180 : -180 ≤ lng ∧ lng ≤ 180 <;>
        simp [h90, h180]
  · simp only [AscDesc.from_str, hsplitD, if_neg hne, if_pos rfl, hmem]
    by_cases h90 : -90 ≤ lat ∧ lat ≤ 90 <;>
      by_cases h180 : -180 ≤ lng ∧ lng ≤ 180 <;>
        simp [h90, h180]

theorem geo_sort_range_validation_witness :
    (AscDesc.from_str
        (("_geoPoint(".data ++ ("45".data ++ ',' :: (" 60".data ++ ")".data)))
          ++ ':' :: "asc".data) =
      .ok (.Asc (.Geo 45 60))) ∧
    (AscDesc.from_str
        (("_geoPoint(".data ++ ("200".data ++ ',' :: ("0".data ++ ")".data)))
          ++ ':' :: "asc".data) =
      .error .InvalidLatitude) ∧
    (AscDesc.from_str
        (("_geoPoint(".data ++ ("45".data ++ ',' :: ("-181".data ++ ")".data)))
          ++ ':' :: "desc".data) =
      .error .InvalidLongitude) := by
  refine ⟨?_, ?_, ?_⟩
  · have h := geo_sort_range_validation "45".data " 60".data 45 60
      (by decide) (by decide) (by decide)
    rw [h.1, if_pos (by constructor <;> decide),
      if_pos (by constructor <;> decide)]
  · have h := geo_sort_range_validation "200".data "0".data 200 0
      (by decide) (by decide) (by decide)
    rw [h.1, if_neg (by intro hx; exact absurd hx.2 (by decide))]
  · have h := geo_sort_range_validation "45".data "-181".data 45 (-181)
      (by decide) (by decide) (by decide)
    rw [h.2, if_pos (by constructor <;> decide),
      if_neg (by intro hx; exact absurd hx.1 (by decide))]

end Milli
